import Mathlib

/-!
Shallow embedding of `stats.go` from the `metrics` package: a counter store
with a start timestamp, parallel `keys`/`values` slices, and export
operations `Print` (plain text) and `MarshalJSON` / `Json` (object-literal
style).  Wall-clock instants are passed explicitly as `Nat` nanosecond
counts measured from the Go zero time; an out-of-range slice index (a Go
runtime panic) is modelled as `Option.none`.  The pretty-printer of
`time.Duration` is Go standard-library code outside this repository, so it
is a parameter `fmtD` of the operations that call it.
-/

namespace Metrics

/-- Instants of `time.Time`, as nanoseconds since the Go zero time; the Go
zero value of `time.Time` corresponds to `0`. -/
abbrev Time := Nat

/-- Values of `time.Duration`, in nanoseconds.  This model is only applied
at instants not earlier than the stored start, so a natural number
suffices. -/
abbrev GoDuration := Nat

/-- The `Stats` structure of `stats.go`: a start timestamp plus the
parallel slices `keys` and `values`.  The `sync.RWMutex` field `mu` only
governs concurrent execution and has no sequential content, so it is not
represented. -/
structure Stats where
  start : Time
  keys : List String
  values : List Int
deriving DecidableEq

/-- The Go zero value of `Stats`: zero time, nil slices. -/
def Stats.zero : Stats := ⟨0, [], []⟩

/-- Two's-complement wraparound of Go's `int` on a 64-bit platform: the
result of an `int` addition is the mathematical result reduced modulo
2^64 into the interval from -2^63 to 2^63 - 1.  The literals are 2^63
and 2^64. -/
def wrap (x : Int) : Int :=
  (x + 9223372036854775808) % 18446744073709551616 - 9223372036854775808

/-- Property of an integer representable as a 64-bit Go `int`: it lies
between -2^63 and 2^63 - 1. -/
def Int64Rep (x : Int) : Prop :=
  -9223372036854775808 ≤ x ∧ x ≤ 9223372036854775807

instance (x : Int) : Decidable (Int64Rep x) :=
  inferInstanceAs (Decidable (-9223372036854775808 ≤ x ∧ x ≤ 9223372036854775807))

/-- Loop body of `Stats.Add`: scan `keys` for `k`; on a hit read and write
`values` at the same index with a wrapping `int` addition (`none` when
that index is out of range of `values`, which in Go is a runtime panic);
if the scan falls through, append `k` and `v` to the two slices.  Returns
the new key slice, the new value slice, and the returned total. -/
def addGo (k : String) (v : Int) :
    List String → List Int → Option (List String × List Int × Int)
  | [], vs => some ([k], vs ++ [v], v)
  | k' :: ks, [] =>
    if k' = k then none
    else (addGo k v ks []).map (fun r => (k' :: r.1, r.2.1, r.2.2))
  | k' :: ks, v' :: vs =>
    if k' = k then some (k' :: ks, wrap (v' + v) :: vs, wrap (v' + v))
    else (addGo k v ks vs).map (fun r => (k' :: r.1, v' :: r.2.1, r.2.2))

/-- `Stats.Add` from `stats.go`: creates or updates the stored metric `k`
by `v` and returns the state together with the entry's new total value. -/
def Stats.Add (s : Stats) (k : String) (v : Int) : Option (Stats × Int) :=
  (addGo k v s.keys s.values).map (fun r => (⟨s.start, r.1, r.2.1⟩, r.2.2))

/-- `Stats.Reset` from `stats.go`: empties both slices and records the
current instant as the new start time. -/
def Stats.Reset (_s : Stats) (now : Time) : Stats := ⟨now, [], []⟩

/-- `Stats.Duration` from `stats.go`: `time.Since(s.start)`, with the
current instant passed explicitly. -/
def Stats.Duration (s : Stats) (now : Time) : GoDuration := now - s.start

/-- Loop of `Stats.Print`: one line `k ++ ": " ++ v` per entry, reading
`values` at the index of each key (`none` on an out-of-range index). -/
def printGo : List String → List Int → Option String
  | [], _ => some ""
  | _ :: _, [] => none
  | k :: ks, v :: vs =>
    (printGo ks vs).map (fun r => k ++ ": " ++ toString v ++ "\n" ++ r)

/-- `Stats.Print` from `stats.go`: the bytes written to the sink — the
entry lines, then one line with the rendered duration when at least one
key exists. -/
def Stats.Print (s : Stats) (now : Time) (fmtD : GoDuration → String) :
    Option String :=
  (printGo s.keys s.values).map (fun out =>
    if 0 < s.keys.length then out ++ fmtD (s.Duration now) ++ "\n" else out)

/-- Text appended for one entry inside the `MarshalJSON` loop, before the
comma and newline: a tab, the quoted key, a colon and the decimal value. -/
def entryChunk (k : String) (v : Int) : String :=
  "\t\"" ++ k ++ "\": " ++ toString v

/-- Loop of `Stats.MarshalJSON` over the accumulated buffer `b`: append
the entry chunk, then a comma when the buffer holds more than one byte,
then a newline.  Reads `values` at the index of each key (`none` on an
out-of-range index). -/
def marshalGo : List String → List Int → String → Option String
  | [], _, b => some b
  | _ :: _, [], _ => none
  | k :: ks, v :: vs, b =>
    marshalGo ks vs
      ((if 1 < (b ++ entryChunk k v).utf8ByteSize
        then b ++ entryChunk k v ++ ","
        else b ++ entryChunk k v) ++ "\n")

/-- Line appended for the elapsed time by `Stats.MarshalJSON` when at
least one key exists: no trailing comma. -/
def durChunk (d : String) : String := "\t\"Duration\": \"" ++ d ++ "\"\n"

/-- `Stats.MarshalJSON` from `stats.go`: the produced byte slice together
with the returned `error` (always `nil`, modelled as `none`). -/
def Stats.MarshalJSON (s : Stats) (now : Time) (fmtD : GoDuration → String) :
    Option (String × Option String) :=
  (marshalGo s.keys s.values "\x7b\n").map (fun b =>
    ((if 0 < s.keys.length then b ++ durChunk (fmtD (s.Duration now)) else b)
      ++ "\x7d\n", none))

/-- `Stats.Json` from `stats.go`: calls `MarshalJSON`, drops the error,
and writes the bytes verbatim to the sink. -/
def Stats.Json (s : Stats) (now : Time) (fmtD : GoDuration → String) :
    Option String :=
  (s.MarshalJSON now fmtD).map (fun r => r.1)

/-- Observer: the value stored for key `k`, mirroring the scan order of
the loops (first occurrence wins). -/
def lookupGo (k : String) : List String → List Int → Option Int
  | k' :: ks, v :: vs => if k' = k then some v else lookupGo k ks vs
  | _, _ => none

/-- Observer on states: the stored value of the metric `k`. -/
def Stats.lookup (s : Stats) (k : String) : Option Int :=
  lookupGo k s.keys s.values

/-- Structural invariant of a store: the two slices have equal length and
no key occurs twice. -/
def Inv (s : Stats) : Prop :=
  s.keys.length = s.values.length ∧ s.keys.Nodup

instance (s : Stats) : Decidable (Inv s) :=
  inferInstanceAs (Decidable (s.keys.length = s.values.length ∧ s.keys.Nodup))

/-- Mutating and reading calls of the public interface, each carrying the
instant at which it runs and, for the exporting calls, the duration
pretty-printer. -/
inductive Op where
  | add (k : String) (v : Int)
  | reset (now : Time)
  | duration (now : Time)
  | print (now : Time) (fmtD : GoDuration → String)
  | json (now : Time) (fmtD : GoDuration → String)
  | marshal (now : Time) (fmtD : GoDuration → String)

/-- Effect of one call on the state; `none` when the call panics. -/
def applyOp (s : Stats) : Op → Option Stats
  | .add k v => (s.Add k v).map (fun r => r.1)
  | .reset now => some (s.Reset now)
  | .duration _ => some s
  | .print now f => (s.Print now f).map (fun _ => s)
  | .json now f => (s.Json now f).map (fun _ => s)
  | .marshal now f => (s.MarshalJSON now f).map (fun _ => s)

/-- Runs a sequence of calls from a state; `none` as soon as one panics. -/
def run (s : Stats) : List Op → Option Stats
  | [] => some s
  | op :: ops =>
    match applyOp s op with
    | some s' => run s' ops
    | none => none

/-- Folds a sequence of `Add` calls for one key, collecting the returned
totals in order. -/
def addAll (s : Stats) (k : String) : List Int → Option (Stats × List Int)
  | [] => some (s, [])
  | d :: ds =>
    match s.Add k d with
    | some r => (addAll r.1 k ds).map (fun q => (q.1, r.2 :: q.2))
    | none => none

/-- Partial sums of a list of deltas on top of a base value `c`, in
unbounded integer arithmetic. -/
def runningTotals (c : Int) : List Int → List Int
  | [] => []
  | d :: ds => (c + d) :: runningTotals (c + d) ds

/-- Partial sums of a list of deltas on top of a base value `c`, each
step performed with the wrapping 64-bit `int` addition of the program. -/
def runningTotalsW (c : Int) : List Int → List Int
  | [] => []
  | d :: ds => wrap (c + d) :: runningTotalsW (wrap (c + d)) ds

/-- Final total of folding a list of deltas onto a base value `c` with
the wrapping 64-bit `int` addition of the program. -/
def wrapSumFrom (c : Int) : List Int → Int
  | [] => c
  | d :: ds => wrapSumFrom (wrap (c + d)) ds

/-- Rendering of the entry lines of the structured export as the spec
describes them: one line per entry, quoted key, decimal value, and a
trailing comma on every line, the last included. -/
def entryLines : List String → List Int → String
  | k :: ks, v :: vs => entryChunk k v ++ "," ++ "\n" ++ entryLines ks vs
  | _, _ => ""

/-- Rendering of the entry lines of the text export: one
`name ++ ": " ++ value` line per entry in insertion order. -/
def printLines : List String → List Int → String
  | k :: ks, v :: vs => k ++ ": " ++ toString v ++ "\n" ++ printLines ks vs
  | _, _ => ""

/-- Shape of the structured export as the spec describes it: opening
brace, entry lines with trailing commas, the Duration line when at least
one entry exists, closing brace. -/
def marshalSpec (s : Stats) (durStr : String) : String :=
  "\x7b\n" ++ entryLines s.keys s.values ++
    (if 0 < s.keys.length then durChunk durStr else "") ++ "\x7d\n"

/-- Example duration pretty-printer used in concrete witnesses: raw
nanosecond count with a unit suffix. -/
def fmtNs (n : GoDuration) : String := toString n ++ "ns"

/-! ### Auxiliary lemmas -/

theorem utf8Size_go_append (a b : List Char) :
    String.utf8ByteSize.go (a ++ b) =
      String.utf8ByteSize.go a + String.utf8ByteSize.go b := by
  induction a with
  | nil => simp [String.utf8ByteSize.go]
  | cons c cs ih =>
    simp [String.utf8ByteSize.go, ih]
    omega

theorem utf8Size_append (a b : String) :
    (a ++ b).utf8ByteSize = a.utf8ByteSize + b.utf8ByteSize := by
  cases a with
  | mk da =>
    cases b with
    | mk db =>
      show String.utf8ByteSize ⟨da ++ db⟩ = _
      simp [String.utf8ByteSize, utf8Size_go_append]

theorem printGo_spec (ks : List String) :
    ∀ vs : List Int, ks.length = vs.length →
      printGo ks vs = some (printLines ks vs) := by
  induction ks with
  | nil =>
    intro vs _
    simp [printGo, printLines]
  | cons k ks ih =>
    intro vs hlen
    cases vs with
    | nil => simp at hlen
    | cons v vs =>
      simp [printGo, printLines, ih vs (by simpa using hlen)]

theorem marshalGo_spec (ks : List String) :
    ∀ (vs : List Int) (b : String), ks.length = vs.length →
      2 ≤ b.utf8ByteSize →
      marshalGo ks vs b = some (b ++ entryLines ks vs) := by
  induction ks with
  | nil =>
    intro vs b _ _
    simp [marshalGo, entryLines, String.append_empty]
  | cons k ks ih =>
    intro vs b hlen hb
    cases vs with
    | nil => simp at hlen
    | cons v vs =>
      have h1 : 1 < (b ++ entryChunk k v).utf8ByteSize := by
        rw [utf8Size_append]; omega
      have h2 : 2 ≤ ((b ++ entryChunk k v ++ ",") ++ "\n").utf8ByteSize := by
        rw [utf8Size_append, utf8Size_append, utf8Size_append]; omega
      rw [marshalGo, if_pos h1, ih vs _ (by simpa using hlen) h2]
      simp [entryLines, String.append_assoc]

theorem Marshal_eq (s : Stats) (now : Time) (f : GoDuration → String)
    (hlen : s.keys.length = s.values.length) :
    s.MarshalJSON now f = some (marshalSpec s (f (s.Duration now)), none) := by
  unfold Stats.MarshalJSON marshalSpec
  rw [marshalGo_spec s.keys s.values _ hlen (by decide)]
  by_cases h : 0 < s.keys.length
  · simp [h, String.append_assoc]
  · simp [h, String.append_assoc, String.append_empty]

theorem Print_eq (s : Stats) (now : Time) (f : GoDuration → String)
    (hlen : s.keys.length = s.values.length) :
    s.Print now f =
      some (printLines s.keys s.values ++
        (if 0 < s.keys.length then f (s.Duration now) ++ "\n" else "")) := by
  unfold Stats.Print
  rw [printGo_spec s.keys s.values hlen]
  by_cases h : 0 < s.keys.length
  · simp [h, String.append_assoc]
  · simp [h, String.append_empty]

theorem lookupGo_none_iff (k : String) (ks : List String) :
    ∀ vs : List Int, ks.length = vs.length →
      (lookupGo k ks vs = none ↔ k ∉ ks) := by
  induction ks with
  | nil =>
    intro vs _
    simp [lookupGo]
  | cons k' ks ih =>
    intro vs hlen
    cases vs with
    | nil => simp at hlen
    | cons v vs =>
      by_cases h : k' = k
      · subst h
        simp [lookupGo]
      · have h2 : ¬(k = k') := fun hh => h hh.symm
        rw [lookupGo, if_neg h, ih vs (by simpa using hlen)]
        simp [List.mem_cons, h2]

theorem wrap_eq_self (x : Int) (h : Int64Rep x) : wrap x = x := by
  unfold Int64Rep at h
  unfold wrap
  omega

theorem addGo_present (k : String) (v : Int) (ks : List String) :
    ∀ (vs : List Int) (c : Int), lookupGo k ks vs = some c →
      ∃ vs', addGo k v ks vs = some (ks, vs', wrap (c + v)) ∧
        vs'.length = vs.length ∧
        lookupGo k ks vs' = some (wrap (c + v)) ∧
        ∀ a, a ≠ k → lookupGo a ks vs' = lookupGo a ks vs := by
  induction ks with
  | nil =>
    intro vs c h
    simp [lookupGo] at h
  | cons k' ks ih =>
    intro vs c h
    cases vs with
    | nil => simp [lookupGo] at h
    | cons v' vs =>
      by_cases hk : k' = k
      · subst hk
        rw [lookupGo, if_pos rfl] at h
        injection h with h
        subst h
        refine ⟨wrap (v' + v) :: vs, ?_, rfl, ?_, ?_⟩
        · rw [addGo, if_pos rfl]
        · rw [lookupGo, if_pos rfl]
        · intro a ha
          have : ¬(k' = a) := fun hh => ha hh.symm
          rw [lookupGo, if_neg this, lookupGo, if_neg this]
      · rw [lookupGo, if_neg hk] at h
        obtain ⟨vs', ha, hl, hlk, hfr⟩ := ih vs c h
        refine ⟨v' :: vs', ?_, by simp [hl], ?_, ?_⟩
        · rw [addGo, if_neg hk, ha]
          rfl
        · rw [lookupGo, if_neg hk]
          exact hlk
        · intro a ha2
          by_cases hk2 : k' = a
          · rw [lookupGo, if_pos hk2, lookupGo, if_pos hk2]
          · rw [lookupGo, if_neg hk2, lookupGo, if_neg hk2]
            exact hfr a ha2

theorem addGo_absent (k : String) (v : Int) (ks : List String) :
    ∀ vs : List Int, ks.length = vs.length → lookupGo k ks vs = none →
      addGo k v ks vs = some (ks ++ [k], vs ++ [v], v) := by
  induction ks with
  | nil =>
    intro vs _ _
    simp [addGo]
  | cons k' ks ih =>
    intro vs hlen h
    cases vs with
    | nil => simp at hlen
    | cons v' vs =>
      by_cases hk : k' = k
      · rw [lookupGo, if_pos hk] at h
        cases h
      · rw [lookupGo, if_neg hk] at h
        rw [addGo, if_neg hk, ih vs (by simpa using hlen) h]
        rfl

theorem lookupGo_append_self (k : String) (v : Int) (ks : List String) :
    ∀ vs : List Int, ks.length = vs.length → lookupGo k ks vs = none →
      lookupGo k (ks ++ [k]) (vs ++ [v]) = some v := by
  induction ks with
  | nil =>
    intro vs hlen _
    have hvs : vs = [] := List.length_eq_zero.mp hlen.symm
    subst hvs
    simp [lookupGo]
  | cons k' ks ih =>
    intro vs hlen h
    cases vs with
    | nil => simp at hlen
    | cons v' vs =>
      by_cases hk : k' = k
      · rw [lookupGo, if_pos hk] at h
        cases h
      · rw [lookupGo, if_neg hk] at h
        simpa [lookupGo, hk] using ih vs (by simpa using hlen) h

theorem lookupGo_append_other (a k : String) (v : Int) (hak : a ≠ k)
    (ks : List String) :
    ∀ vs : List Int, ks.length = vs.length →
      lookupGo a (ks ++ [k]) (vs ++ [v]) = lookupGo a ks vs := by
  induction ks with
  | nil =>
    intro vs hlen
    have hvs : vs = [] := List.length_eq_zero.mp hlen.symm
    subst hvs
    have : ¬(k = a) := fun hh => hak hh.symm
    simp [lookupGo, this]
  | cons k' ks ih =>
    intro vs hlen
    cases vs with
    | nil => simp at hlen
    | cons v' vs =>
      by_cases hk : k' = a
      · simp [lookupGo, hk]
      · simp only [List.cons_append, lookupGo, if_neg hk]
        exact ih vs (by simpa using hlen)

theorem add_spec (s : Stats) (k : String) (v : Int) (hInv : Inv s) :
    ∃ s' r, s.Add k v = some (s', r) ∧ Inv s' ∧
      s'.start = s.start ∧
      (s.lookup k = none → r = v) ∧
      (∀ c, s.lookup k = some c → r = wrap (c + v)) ∧
      s'.lookup k = some r ∧
      (∀ a, a ≠ k → s'.lookup a = s.lookup a) ∧
      (s'.keys = s.keys ∨ s'.keys = s.keys ++ [k]) := by
  obtain ⟨hlen, hnd⟩ := hInv
  cases hcase : s.lookup k with
  | some c =>
    obtain ⟨vs', ha, hl, hlk, hfr⟩ := addGo_present k v s.keys s.values c hcase
    refine ⟨⟨s.start, s.keys, vs'⟩, wrap (c + v), ?_, ⟨hlen.trans hl.symm, hnd⟩,
      rfl, ?_, ?_, hlk, ?_, Or.inl rfl⟩
    · unfold Stats.Add
      rw [ha]
      rfl
    · intro h
      cases h
    · intro c2 h2
      injection h2 with h2
      rw [h2]
    · intro a ha2
      exact hfr a ha2
  | none =>
    have ha := addGo_absent k v s.keys s.values hlen hcase
    have hkmem : k ∉ s.keys := (lookupGo_none_iff k s.keys s.values hlen).mp hcase
    refine ⟨⟨s.start, s.keys ++ [k], s.values ++ [v]⟩, v, ?_, ?_, rfl,
      fun _ => rfl, ?_, ?_, ?_, Or.inr rfl⟩
    · unfold Stats.Add
      rw [ha]
      rfl
    · exact ⟨by simp [hlen], by simp [List.nodup_append, hnd, hkmem]⟩
    · intro c2 h2
      cases h2
    · exact lookupGo_append_self k v s.keys s.values hlen hcase
    · intro a ha2
      exact lookupGo_append_other a k v ha2 s.keys s.values hlen

theorem addAll_present (k : String) (ds : List Int) :
    ∀ (s : Stats) (c : Int), Inv s → s.lookup k = some c →
      ∃ s', addAll s k ds = some (s', runningTotalsW c ds) ∧ Inv s' ∧
        s'.lookup k = some (wrapSumFrom c ds) := by
  induction ds with
  | nil =>
    intro s c h hl
    exact ⟨s, by simp [addAll, runningTotalsW], h, hl⟩
  | cons d ds ih =>
    intro s c hInv hl
    obtain ⟨s1, r, ha, hInv1, _, _, hsome, hlk1, _, _⟩ := add_spec s k d hInv
    have hr : r = wrap (c + d) := hsome c hl
    rw [hr] at hlk1
    obtain ⟨s', hrest, hInv', hlk'⟩ := ih s1 (wrap (c + d)) hInv1 hlk1
    refine ⟨s', ?_, hInv', ?_⟩
    · simp [addAll, ha, hrest, runningTotalsW, hr]
    · rw [hlk']
      rfl

theorem runningTotalsW_eq (ds : List Int) :
    ∀ c : Int, (∀ t ∈ runningTotals c ds, Int64Rep t) →
      runningTotalsW c ds = runningTotals c ds ∧
      wrapSumFrom c ds = c + ds.sum := by
  induction ds with
  | nil =>
    intro c _
    exact ⟨rfl, by simp [wrapSumFrom]⟩
  | cons d ds ih =>
    intro c h
    have h1 : Int64Rep (c + d) := h (c + d) (by simp [runningTotals])
    have hw : wrap (c + d) = c + d := wrap_eq_self _ h1
    have h2 : ∀ t ∈ runningTotals (c + d) ds, Int64Rep t := fun t ht =>
      h t (by simp [runningTotals, ht])
    obtain ⟨hA, hB⟩ := ih (c + d) h2
    constructor
    · simp [runningTotalsW, runningTotals, hw, hA]
    · show wrapSumFrom (wrap (c + d)) ds = c + (d :: ds).sum
      rw [hw, hB, List.sum_cons]
      ring

theorem run_inv (ops : List Op) :
    ∀ s : Stats, Inv s → ∃ s', run s ops = some s' ∧ Inv s' := by
  induction ops with
  | nil =>
    intro s h
    exact ⟨s, rfl, h⟩
  | cons op ops ih =>
    intro s h
    have hstep : ∃ s1, applyOp s op = some s1 ∧ Inv s1 := by
      cases op with
      | add k v =>
        obtain ⟨s2, r, ha, hInv2, _⟩ := add_spec s k v h
        exact ⟨s2, by simp [applyOp, ha], hInv2⟩
      | reset t => exact ⟨⟨t, [], []⟩, rfl, ⟨rfl, List.nodup_nil⟩⟩
      | duration t => exact ⟨s, rfl, h⟩
      | print t f => exact ⟨s, by simp [applyOp, Print_eq s t f h.1], h⟩
      | json t f =>
        exact ⟨s, by simp [applyOp, Stats.Json, Marshal_eq s t f h.1], h⟩
      | marshal t f => exact ⟨s, by simp [applyOp, Marshal_eq s t f h.1], h⟩
    obtain ⟨s1, ha, h1⟩ := hstep
    obtain ⟨s', hr, h'⟩ := ih s1 h1
    refine ⟨s', ?_, h'⟩
    rw [run, ha]
    exact hr

/-! ### Claim theorems -/

/-- C1 is false on the code as stated over unbounded integers: adding
2^63 - 1 and then 1 under one name makes the second `Add` wrap the 64-bit
`int` sum to -2^63, while the mathematical sum of the deltas is 2^63, so
the stored value does not equal the sum of the deltas and the second call
does not return previous-plus-delta. -/
theorem c1_counterexample :
    addAll Stats.zero "hits" [9223372036854775807, 1] =
      some (⟨0, ["hits"], [-9223372036854775808]⟩,
        [9223372036854775807, -9223372036854775808]) ∧
    ([9223372036854775807, 1] : List Int).sum = 9223372036854775808 ∧
    Stats.lookup ⟨0, ["hits"], [-9223372036854775808]⟩ "hits" =
      some (-9223372036854775808) ∧
    (-9223372036854775808 : Int) ≠ 9223372036854775808 := by
  refine ⟨by decide, by decide, by decide, by decide⟩

/-- C1 (amended): starting from any well-formed store in which `name` is
not yet present, a sequence of `Add name d1, …, Add name dn` of
64-bit-representable deltas with no intervening `Reset` makes each call
return the entry's new total as the program computes it — the delta
itself on the first call, and afterwards the previous value plus the
delta with 64-bit two's-complement wraparound — and leaves that wrapped
running sum as the stored value for `name`; whenever every running sum of
the deltas stays within the signed 64-bit range, the wrapped totals are
the mathematical partial sums and the stored value is exactly
`d1 + … + dn`. -/
theorem c1_wrapped_accumulation (s : Stats) (k : String) (ds : List Int)
    (hInv : Inv s) (hk : s.lookup k = none)
    (hds : ∀ d ∈ ds, Int64Rep d) :
    ∃ s', addAll s k ds = some (s', runningTotalsW 0 ds) ∧
      s'.lookup k = (if ds = [] then none else some (wrapSumFrom 0 ds)) ∧
      ((∀ t ∈ runningTotals 0 ds, Int64Rep t) →
        runningTotalsW 0 ds = runningTotals 0 ds ∧
        wrapSumFrom 0 ds = ds.sum) := by
  cases ds with
  | nil =>
    refine ⟨s, by simp [addAll, runningTotalsW], by simp [hk], fun _ => ?_⟩
    exact ⟨rfl, by simp [wrapSumFrom]⟩
  | cons d ds =>
    obtain ⟨s1, r, ha, hInv1, _, hnone, _, hlk1, _, _⟩ := add_spec s k d hInv
    have hr : r = d := hnone hk
    rw [hr] at hlk1
    have hw : wrap (0 + d) = d := by
      rw [zero_add]
      exact wrap_eq_self d (hds d (by simp))
    obtain ⟨s', hrest, _, hlk'⟩ := addAll_present k ds s1 d hInv1 hlk1
    have htot : runningTotalsW 0 (d :: ds) = d :: runningTotalsW d ds := by
      rw [runningTotalsW, hw]
    have hsum : wrapSumFrom 0 (d :: ds) = wrapSumFrom d ds := by
      rw [wrapSumFrom, hw]
    refine ⟨s', ?_, ?_, fun hall => ?_⟩
    · rw [htot]
      simp [addAll, ha, hrest, hr]
    · rw [hsum]
      simp [hlk']
    · refine ⟨(runningTotalsW_eq (d :: ds) 0 hall).1, ?_⟩
      have := (runningTotalsW_eq (d :: ds) 0 hall).2
      omega

/-- Witness for the amended C1: adding 5 then 3 under the name `hits` to
the zero store returns 5 then 8 and stores 8. -/
theorem c1_wrapped_accumulation_witness :
    ∃ s', addAll Stats.zero "hits" [5, 3] =
        some (s', runningTotalsW 0 [5, 3]) ∧
      s'.lookup "hits" =
        (if ([5, 3] : List Int) = [] then none
         else some (wrapSumFrom 0 [5, 3])) ∧
      ((∀ t ∈ runningTotals 0 ([5, 3] : List Int), Int64Rep t) →
        runningTotalsW 0 [5, 3] = runningTotals 0 ([5, 3] : List Int) ∧
        wrapSumFrom 0 [5, 3] = ([5, 3] : List Int).sum) :=
  c1_wrapped_accumulation Stats.zero "hits" [5, 3] (by decide) rfl (by decide)

/-- C2: for any well-formed store, `MarshalJSON` returns exactly the
opening brace line, one quoted-key/integer-value line with a trailing
comma per entry in first-insertion order, then — only when at least one
entry exists — the `"Duration"` line rendering the elapsed duration, and
the closing brace line; with zero entries nothing stands between the two
brace lines. -/
theorem c2_marshal_shape (s : Stats) (now : Time) (f : GoDuration → String)
    (hlen : s.keys.length = s.values.length) :
    s.MarshalJSON now f = some (marshalSpec s (f (s.Duration now)), none) ∧
    (s.keys = [] → s.MarshalJSON now f = some ("\x7b\n" ++ "\x7d\n", none)) := by
  refine ⟨Marshal_eq s now f hlen, fun hk => ?_⟩
  rw [Marshal_eq s now f hlen]
  unfold marshalSpec
  have hv : s.values = [] := by
    rw [hk] at hlen
    exact List.length_eq_zero.mp hlen.symm
  rw [hk, hv]
  simp [entryLines, String.append_empty]

/-- Witness for C2 at a concrete two-entry store. -/
theorem c2_marshal_shape_witness :
    Stats.MarshalJSON ⟨0, ["hits", "misses"], [8, 1]⟩ 5 fmtNs =
      some (marshalSpec ⟨0, ["hits", "misses"], [8, 1]⟩ (fmtNs 5), none) ∧
    ((⟨0, ["hits", "misses"], [8, 1]⟩ : Stats).keys = [] →
      Stats.MarshalJSON ⟨0, ["hits", "misses"], [8, 1]⟩ 5 fmtNs =
        some ("\x7b\n" ++ "\x7d\n", none)) :=
  c2_marshal_shape ⟨0, ["hits", "misses"], [8, 1]⟩ 5 fmtNs rfl

/-- C3 is false on the code: at the store holding `hits = 8`, read at
instant 5 with the nanosecond pretty-printer, the serialized bytes end the
Duration line with a bare closing quote and newline, and differ from the
variant carrying a trailing comma on the Duration line. -/
theorem c3_counterexample :
    Stats.MarshalJSON ⟨0, ["hits"], [8]⟩ 5 fmtNs =
      some ("\x7b\n\t\"hits\": 8,\n\t\"Duration\": \"5ns\"\n\x7d\n", none) ∧
    Stats.MarshalJSON ⟨0, ["hits"], [8]⟩ 5 fmtNs ≠
      some ("\x7b\n\t\"hits\": 8,\n\t\"Duration\": \"5ns\",\n\x7d\n", none) := by
  constructor
  · decide
  · decide

/-- C3 (amended): in the structured serialization of a non-empty
well-formed store, every entry line ends with a trailing comma, but the
Duration line carries no comma: the quoted duration is followed directly
by the newline and the closing brace line. -/
theorem c3_no_comma_on_duration_line (s : Stats) (now : Time)
    (f : GoDuration → String) (hlen : s.keys.length = s.values.length)
    (hne : 0 < s.keys.length) :
    s.MarshalJSON now f =
      some ("\x7b\n" ++ entryLines s.keys s.values ++
        ("\t\"Duration\": \"" ++ f (s.Duration now) ++ "\"\n") ++
        "\x7d\n", none) := by
  rw [Marshal_eq s now f hlen]
  unfold marshalSpec durChunk
  rw [if_pos hne]

/-- Witness for the amended C3 at a concrete one-entry store. -/
theorem c3_no_comma_on_duration_line_witness :
    Stats.MarshalJSON ⟨0, ["hits"], [8]⟩ 5 fmtNs =
      some ("\x7b\n" ++ entryLines ["hits"] [8] ++
        ("\t\"Duration\": \"" ++ fmtNs 5 ++ "\"\n") ++
        "\x7d\n", none) :=
  c3_no_comma_on_duration_line ⟨0, ["hits"], [8]⟩ 5 fmtNs rfl (by decide)

/-- C4: on a well-formed store, `Print` writes zero bytes when there are
no entries, and otherwise writes one `name: value` line per entry in
first-insertion order followed by exactly one line holding the rendered
elapsed duration. -/
theorem c4_print_shape (s : Stats) (now : Time) (f : GoDuration → String)
    (hlen : s.keys.length = s.values.length) :
    (s.keys = [] → s.Print now f = some "") ∧
    (s.keys ≠ [] →
      s.Print now f =
        some (printLines s.keys s.values ++ f (s.Duration now) ++ "\n")) := by
  constructor
  · intro hk
    have hv : s.values = [] := by
      rw [hk] at hlen
      exact List.length_eq_zero.mp hlen.symm
    rw [Print_eq s now f hlen, hk, hv]
    simp [printLines]
  · intro hk
    have h : 0 < s.keys.length := List.length_pos.mpr hk
    rw [Print_eq s now f hlen, if_pos h]
    simp [String.append_assoc]

/-- Witness for C4 at a concrete two-entry store. -/
theorem c4_print_shape_witness :
    ((⟨0, ["hits", "misses"], [8, 1]⟩ : Stats).keys = [] →
      Stats.Print ⟨0, ["hits", "misses"], [8, 1]⟩ 5 fmtNs = some "") ∧
    ((⟨0, ["hits", "misses"], [8, 1]⟩ : Stats).keys ≠ [] →
      Stats.Print ⟨0, ["hits", "misses"], [8, 1]⟩ 5 fmtNs =
        some (printLines ["hits", "misses"] [8, 1] ++ fmtNs 5 ++ "\n")) :=
  c4_print_shape ⟨0, ["hits", "misses"], [8, 1]⟩ 5 fmtNs rfl

/-- C5: `Reset` empties the store — no name has a stored value any more,
and both exports produce the empty-store output — stamps the reset
instant as the window start, so the duration observed at that instant is
zero, and a following `Add` of any name, including one present before the
reset, returns exactly its delta. -/
theorem c5_reset (s : Stats) (t now : Time) (a k : String) (d : Int)
    (f : GoDuration → String) :
    (s.Reset t).keys = [] ∧ (s.Reset t).values = [] ∧
    (s.Reset t).lookup a = none ∧
    (s.Reset t).start = t ∧
    (s.Reset t).Duration t = 0 ∧
    (s.Reset t).Print now f = some "" ∧
    (s.Reset t).MarshalJSON now f = some ("\x7b\n" ++ "\x7d\n", none) ∧
    (s.Reset t).Add k d = some (⟨t, [k], [d]⟩, d) :=
  ⟨rfl, rfl, rfl, rfl, Nat.sub_self t, rfl, rfl, rfl⟩

/-- C6: an `Add` on a well-formed store leaves the window start unchanged,
leaves the stored value of every other name unchanged, and either keeps
the key sequence identical or extends it by the new name at the end, so
the relative order of previously-present entries is preserved. -/
theorem c6_add_frame (s : Stats) (k : String) (v : Int) (hInv : Inv s) :
    ∃ s' r, s.Add k v = some (s', r) ∧
      s'.start = s.start ∧
      (∀ a, a ≠ k → s'.lookup a = s.lookup a) ∧
      (s'.keys = s.keys ∨ s'.keys = s.keys ++ [k]) := by
  obtain ⟨s', r, ha, _, hst, _, _, _, hfr, hkeys⟩ := add_spec s k v hInv
  exact ⟨s', r, ha, hst, hfr, hkeys⟩

/-- Witness for C6: adding a new name to a concrete one-entry store. -/
theorem c6_add_frame_witness :
    ∃ s' r, Stats.Add ⟨7, ["hits"], [8]⟩ "misses" 1 = some (s', r) ∧
      s'.start = (⟨7, ["hits"], [8]⟩ : Stats).start ∧
      (∀ a, a ≠ "misses" →
        s'.lookup a = Stats.lookup ⟨7, ["hits"], [8]⟩ a) ∧
      (s'.keys = (⟨7, ["hits"], [8]⟩ : Stats).keys ∨
        s'.keys = (⟨7, ["hits"], [8]⟩ : Stats).keys ++ ["misses"]) :=
  c6_add_frame ⟨7, ["hits"], [8]⟩ "misses" 1 (by decide)

/-- C7 is false on the code: the Go zero value of the store keeps the zero
time as its window start, so on a store constructed at instant 5 the
duration observed at that same instant is 5 nanoseconds, not zero. -/
theorem c7_counterexample :
    Stats.zero.start = 0 ∧ Stats.zero.Duration 5 = 5 ∧ (5 : GoDuration) ≠ 0 :=
  ⟨rfl, rfl, by decide⟩

/-- C7 (amended): the window start is not stamped at construction — the
Go zero value of the store carries the zero time, so before any `Reset`
the reported duration is the full offset of the current instant from the
zero time; only `Reset` stamps the current instant as the window start. -/
theorem c7_start_unset_at_construction (now t n : Time) :
    Stats.zero.Duration now = now ∧ (Stats.zero.Reset t).start = t ∧
    (Stats.zero.Reset t).Duration n = n - t :=
  ⟨Nat.sub_zero now, rfl, rfl⟩

/-- C8: on a well-formed store, `Json` writes to the sink exactly the byte
sequence that `MarshalJSON` returns, and the error component returned by
`MarshalJSON` is nil. -/
theorem c8_json_writes_marshal_bytes (s : Stats) (now : Time)
    (f : GoDuration → String) (hlen : s.keys.length = s.values.length) :
    ∃ b, s.MarshalJSON now f = some (b, none) ∧ s.Json now f = some b := by
  refine ⟨marshalSpec s (f (s.Duration now)), Marshal_eq s now f hlen, ?_⟩
  unfold Stats.Json
  rw [Marshal_eq s now f hlen]
  rfl

/-- Witness for C8 at a concrete one-entry store. -/
theorem c8_json_writes_marshal_bytes_witness :
    ∃ b, Stats.MarshalJSON ⟨0, ["hits"], [8]⟩ 5 fmtNs = some (b, none) ∧
      Stats.Json ⟨0, ["hits"], [8]⟩ 5 fmtNs = some b :=
  c8_json_writes_marshal_bytes ⟨0, ["hits"], [8]⟩ 5 fmtNs rfl

/-- C10: every state reachable from the zero-valued store by any sequence
of `Add`, `Reset`, `Duration`, `Print`, `Json` and `MarshalJSON` calls
satisfies the structural invariant — the key and value slices have equal
length and the keys hold no duplicates — and on such a state `Add`,
`Print` and `MarshalJSON` never hit an out-of-range index. -/
theorem c10_reachable_invariant (ops : List Op) :
    ∃ s', run Stats.zero ops = some s' ∧ Inv s' ∧
      ∀ (k : String) (v : Int) (now : Time) (f : GoDuration → String),
        (s'.Add k v).isSome ∧ (s'.Print now f).isSome ∧
        (s'.MarshalJSON now f).isSome := by
  obtain ⟨s', hr, hInv⟩ := run_inv ops Stats.zero ⟨rfl, List.nodup_nil⟩
  refine ⟨s', hr, hInv, fun k v now f => ⟨?_, ?_, ?_⟩⟩
  · obtain ⟨s2, r, ha, _⟩ := add_spec s' k v hInv
    rw [ha]
    rfl
  · rw [Print_eq s' now f hInv.1]
    rfl
  · rw [Marshal_eq s' now f hInv.1]
    rfl

end Metrics
